import Mathlib

/-!
Shallow embedding of the HALI repository's HALIv2 index core
(`src/include/indexes/rmi_index.h`, `src/include/bloom_filter.h`,
`src/include/hash_utils.h`), together with theorems settling the frozen
claims about it.

Modelling conventions:
* `KeyType = uint64_t` (as instantiated by `src/src/main.cpp`): keys and
  values are `Nat`, with an explicit `% 2 ^ 64` wherever the C++ code
  performs wrapping 64-bit arithmetic.
* C++ `double` arithmetic is modelled exactly by the fraction type
  `Dbl` below.  Every concrete input used in a theorem below only
  exercises dyadic values (`0.5`, `2.0`, ...) on which IEEE double
  arithmetic is exact and agrees with the exact fractions; no
  universally quantified theorem below depends on the rounding of a
  `double`.
* `std::vector` becomes `List`; fallible or undefined behaviour of
  `load` is made explicit through `Except LoadError`.
-/

namespace HALI

/-- 2^64, the modulus of the C++ `uint64_t` arithmetic. -/
def M64 : Nat := 2 ^ 64

/-! ### Exact model of `double` values

An unreduced fraction `num / den`.  All values the embedded code ever
produces are exactly representable, and the operations below are the
exact field operations, so this models the C++ `double` computations
faithfully at every input where those computations are exact (which
includes every concrete input appearing in the theorems below).
Fractions are deliberately left unnormalised so that every operation is
structurally recursive and kernel-reducible. -/
structure Dbl where
  num : Int
  den : Nat
deriving DecidableEq, Repr

namespace Dbl

/-- The rational value a `Dbl` represents (for spec-side statements). -/
def toRat (a : Dbl) : ℚ := (a.num : ℚ) / (a.den : ℚ)

instance (n : Nat) : OfNat Dbl n := ⟨⟨(n : Int), 1⟩⟩

instance : Add Dbl := ⟨fun a b => ⟨a.num * b.den + b.num * a.den, a.den * b.den⟩⟩

instance : Sub Dbl := ⟨fun a b => ⟨a.num * b.den - b.num * a.den, a.den * b.den⟩⟩

instance : Mul Dbl := ⟨fun a b => ⟨a.num * b.num, a.den * b.den⟩⟩

instance : Div Dbl := ⟨fun a b => ⟨a.num * b.den * b.num.sign, a.den * b.num.natAbs⟩⟩

instance : LT Dbl := ⟨fun a b => a.num * (b.den : Int) < b.num * (a.den : Int)⟩

instance : LE Dbl := ⟨fun a b => a.num * (b.den : Int) ≤ b.num * (a.den : Int)⟩

instance : DecidableRel (fun (a b : Dbl) => a < b) := fun _ _ => Int.decLt _ _

instance : DecidableRel (fun (a b : Dbl) => a ≤ b) := fun _ _ => Int.decLe _ _

/-- Absolute value. -/
def abs (a : Dbl) : Dbl := ⟨(a.num.natAbs : Int), a.den⟩

/-- `std::min`. -/
def dmin (a b : Dbl) : Dbl := if a < b then a else b

/-- `std::max`. -/
def dmax (a b : Dbl) : Dbl := if a < b then b else a

/-- `static_cast<size_t>` of a nonnegative `double`: truncation, which
on nonnegative values is the floor. -/
def floorNat (a : Dbl) : Nat := (a.num.fdiv (a.den : Int)).toNat

end Dbl

/-- Coerce a machine integer to `double`. -/
def dOf (n : Nat) : Dbl := ⟨(n : Int), 1⟩

/-! ### `hash_utils.h` -/

/-- `rotl64` from `hash_utils.h`: rotate a 64-bit word left by `r`. -/
def rotl64 (x r : Nat) : Nat :=
  ((x <<< r) % M64) ||| (x >>> (64 - r))

/-- `HashUtils::xxhash64` from `hash_utils.h`, specialised to the only
shape the index ever hashes: an 8-byte `uint64_t` key (`len = 8 < 32`,
so the `v1..v4` block loop is skipped, one 8-byte tail chunk is mixed
in, and the avalanche finishes).  All arithmetic is mod 2^64. -/
def xxhash64_u64 (key seed : Nat) : Nat :=
  let p1 : Nat := 11400714785074694791
  let p2 : Nat := 14029467366897019727
  let p3 : Nat := 1609587929392839161
  let p4 : Nat := 9650029242287828579
  let p5 : Nat := 2870177450012600261
  let h0 := (seed + p5) % M64
  let h1 := (h0 + 8) % M64
  let k1 := (key * p2) % M64
  let k2 := rotl64 k1 31
  let k3 := (k2 * p1) % M64
  let h2 := h1 ^^^ k3
  let h3 := (rotl64 h2 27 * p1 + p4) % M64
  let h4 := h3 ^^^ (h3 >>> 33)
  let h5 := (h4 * p2) % M64
  let h6 := h5 ^^^ (h5 >>> 29)
  let h7 := (h6 * p3) % M64
  h7 ^^^ (h7 >>> 32)

/-! ### `bloom_filter.h` -/

/-- State of `BloomFilter` (`bloom_filter.h`): packed 64-bit words,
total bit count, probe count and insertion count. -/
structure BloomFilter where
  bits : List Nat
  num_bits : Nat
  num_hash_functions : Nat
  num_inserted : Nat
deriving DecidableEq, Repr

/-- The `BloomFilter(expected_elements, bits_per_key)` constructor.
`num_bits = expected * bits_per_key` rounded up to a multiple of 64;
`k = max(1, (size_t)(bits_per_key * 0.693))` — the C++ truncates the
double product `bits_per_key * 0.693`, which is exactly
`bits_per_key * 693 / 1000` in integer arithmetic (exact for the 5..15
bits/key range used here, where the double product is never within an
ulp of an integer). -/
def BloomFilter.build (expected_elements bits_per_key : Nat) : BloomFilter :=
  let nb0 := expected_elements * bits_per_key
  let k := max 1 (bits_per_key * 693 / 1000)
  let nb := ((nb0 + 63) / 64) * 64
  { bits := List.replicate (nb / 64) 0
    num_bits := nb
    num_hash_functions := k
    num_inserted := 0 }

instance : Inhabited BloomFilter := ⟨BloomFilter.build 1000 10⟩

/-- The double-hashing probe position of probe `i` for `key`:
`(h1 + i * h2) % num_bits_`, where the sum and the product wrap in
`uint64_t` before the modulus is taken. -/
def bloomProbe (key i nb : Nat) : Nat :=
  let h1 := xxhash64_u64 key 0
  let h2 := xxhash64_u64 key h1
  ((h1 + i * h2) % M64) % nb

/-- `BloomFilter::insert`: set the probe bits of `key`. -/
def BloomFilter.insertKey (b : BloomFilter) (key : Nat) : BloomFilter :=
  let bits := (List.range b.num_hash_functions).foldl
    (fun bs i =>
      let pos := bloomProbe key i b.num_bits
      bs.set (pos / 64) ((bs.getD (pos / 64) 0) ||| (1 <<< (pos % 64))))
    b.bits
  { b with bits := bits, num_inserted := b.num_inserted + 1 }

/-- `BloomFilter::contains`: all probe bits of `key` are set. -/
def BloomFilter.containsKey (b : BloomFilter) (key : Nat) : Bool :=
  (List.range b.num_hash_functions).all
    (fun i =>
      let pos := bloomProbe key i b.num_bits
      (b.bits.getD (pos / 64) 0) &&& (1 <<< (pos % 64)) ≠ 0)

/-! ### Exact associative containers

Modelled from the spec: `art::map` and `phmap::flat_hash_map` are
third-party exact associative containers (the OT of spec §4.4 and the
unordered delta variant of §4.5, both with `std::map`-like semantics:
`find` is exact, `insert` returns whether the key was new, `erase`
returns how many entries it removed).  They are modelled as association
lists with exactly those semantics. -/

/-- Exact map lookup (`map::find`). -/
def amFind (m : List (Nat × Nat)) (k : Nat) : Option Nat :=
  (m.find? (fun p => p.1 = k)).map (fun p => p.2)

/-- Exact map insertion (`map::insert`): returns the new map and whether
the key was inserted (`false` when already present, map unchanged). -/
def amInsert (m : List (Nat × Nat)) (k v : Nat) : List (Nat × Nat) × Bool :=
  if (m.find? (fun p => p.1 = k)).isSome then (m, false) else (m ++ [(k, v)], true)

/-- Exact map erasure (`map::erase`): returns the new map and whether an
entry was removed. -/
def amErase (m : List (Nat × Nat)) (k : Nat) : List (Nat × Nat) × Bool :=
  (m.filter (fun p => p.1 ≠ k), (m.find? (fun p => p.1 = k)).isSome)

/-- `amAssign`: `tree[k] = v` on an exact map (overwrite or append). -/
def amAssign (m : List (Nat × Nat)) (k v : Nat) : List (Nat × Nat) :=
  if (m.find? (fun p => p.1 = k)).isSome then
    m.map (fun p => if p.1 = k then (k, v) else p)
  else m ++ [(k, v)]

/-- The `ARTExpert` constructor's loop `tree[k[i]] = v[i]`. -/
def amOfList (l : List (Nat × Nat)) : List (Nat × Nat) :=
  l.foldl (fun m p => amAssign m p.1 p.2) []

/-! ### Search routines -/

/-- `std::lower_bound(begin+s, begin+e, key)` on the (sorted) index
range `[s, e)` of `l`: the first index `i ∈ [s, e)` with `key ≤ l[i]`,
or `e` if none. -/
def lowerBoundIdx (l : List Nat) (s e key : Nat) : Nat :=
  match (List.range' s (e - s)).find? (fun i => key ≤ l.getD i 0) with
  | some i => i
  | none => e

/-- `std::upper_bound(begin, end, key)` on a (sorted, non-decreasing)
list: the first index `i` with `key < l[i]`, or `l.length` if none. -/
def upperBoundIdx (l : List Nat) (key : Nat) : Nat :=
  match (List.range l.length).find? (fun i => key < l.getD i 0) with
  | some i => i
  | none => l.length

/-! ### Linear models and experts (`rmi_index.h`) -/

/-- `RMIExpert::LinearModel`: slope and intercept of an OLS fit. -/
structure LinearModel where
  slope : Dbl
  intercept : Dbl
deriving DecidableEq, Repr

/-- `LinearModel::train` on keys and their positions: ordinary least
squares; if `|denominator| ≤ 1e-10` the model degenerates to
`slope = 0`, `intercept = mean(positions)`. -/
def LinearModel.train (keys positions : List Nat) : LinearModel :=
  if keys = [] then ⟨0, 0⟩ else
  let n : Dbl := dOf keys.length
  let sum_x : Dbl := (keys.map dOf).foldl (· + ·) 0
  let sum_y : Dbl := (positions.map dOf).foldl (· + ·) 0
  let sum_xy : Dbl := ((keys.zip positions).map (fun p => dOf p.1 * dOf p.2)).foldl (· + ·) 0
  let sum_x2 : Dbl := (keys.map (fun k => dOf k * dOf k)).foldl (· + ·) 0
  let mean_x := sum_x / n
  let mean_y := sum_y / n
  let num := sum_xy - n * mean_x * mean_y
  let den := sum_x2 - n * mean_x * mean_x
  if (1 : Dbl) / 10000000000 < den.abs then
    ⟨num / den, mean_y - num / den * mean_x⟩
  else
    ⟨0, mean_y⟩

/-- `LinearModel::predict`: clamp `slope * key + intercept` to
`[0, max_pos]` and truncate. -/
def LinearModel.predict (m : LinearModel) (key max_pos : Nat) : Nat :=
  Dbl.floorNat (Dbl.dmax 0 (Dbl.dmin (m.slope * dOf key + m.intercept) (dOf max_pos)))

/-- A HALIv2 expert partition.  `pgm` and `rmi` keep the sorted keys and
values plus model state; `art` keeps its exact entry list (its `keys` /
`values` member vectors are recoverable as `entries.map`). -/
inductive Expert
  | pgm (keys values : List Nat) (min_key max_key : Nat)
  | rmi (keys values : List Nat) (min_key max_key : Nat) (model : LinearModel)
  | art (entries : List (Nat × Nat)) (min_key max_key : Nat)
deriving DecidableEq, Repr

instance : Inhabited Expert := ⟨.art [] 0 0⟩

/-- The keys an expert stores (the `Expert::keys` member). -/
def Expert.keyList : Expert → List Nat
  | .pgm keys _ _ _ => keys
  | .rmi keys _ _ _ _ => keys
  | .art entries _ _ => entries.map (fun p => p.1)

/-- The expert's inclusive lower bound `Expert::min_key`. -/
def Expert.minKey : Expert → Nat
  | .pgm _ _ mk _ => mk
  | .rmi _ _ mk _ _ => mk
  | .art _ mk _ => mk

/-- The expert's inclusive upper bound `Expert::max_key`. -/
def Expert.maxKey : Expert → Nat
  | .pgm _ _ _ mk => mk
  | .rmi _ _ _ mk _ => mk
  | .art _ _ mk => mk

/-- Modelled from the spec: `pgm::PGMIndex<K,64>::search` comes from a
third-party library that is not in the repository.  Spec §4.2 pins its
contract: the position of `key`, if present, lies in the returned
window, and membership is decided by a bounded `lower_bound` plus an
exact comparison.  The window is modelled as `±64` positions around the
exact rank of `key` (a valid ε=64 cover; no claim below depends on the
window's width, only on the final equality check). -/
def pgmSearchWindow (keys : List Nat) (key : Nat) : Nat × Nat :=
  let pos := lowerBoundIdx keys 0 keys.length key
  (if pos > 64 then pos - 64 else 0, min (pos + 64) keys.length)

/-- `Expert::find` (`PGMExpert::find`, `RMIExpert::find`,
`ARTExpert::find`): bounded `lower_bound` search plus exact comparison
for the learned experts, exact map lookup for ART. -/
def Expert.find : Expert → Nat → Option Nat
  | .pgm keys values _ _, key =>
      let w := pgmSearchWindow keys key
      let it := lowerBoundIdx keys w.1 w.2 key
      if it < w.2 ∧ keys.getD it 0 = key then some (values.getD it 0) else none
  | .rmi keys values _ _ model, key =>
      let pos := model.predict key (keys.length - 1)
      let start := if pos > 64 then pos - 64 else 0
      let stop := min (pos + 64) keys.length
      let it := lowerBoundIdx keys start stop key
      if it < stop ∧ keys.getD it 0 = key then some (values.getD it 0) else none
  | .art entries _ _, key => amFind entries key

/-! ### Configuration (`HALIv2Index::Config`) -/

/-- Newton iteration for the integer square root, structurally
recursive on a fuel argument so the kernel can evaluate it. -/
def isqrtAux : Nat → Nat → Nat → Nat
  | 0, _, g => g
  | fuel + 1, n, g =>
    let g' := (g + n / g) / 2
    if g' < g then isqrtAux fuel n g' else g

/-- `⌊√n⌋`, the value of `(size_t)std::sqrt((double)n)` for every `n`
below 2^52 (where the double conversion and square root are exact
enough that truncation yields the integer square root). -/
def isqrt (n : Nat) : Nat :=
  if n = 0 then 0 else isqrtAux n n n

/-- `Config::adaptive_expert_count`:
`base = max(4, (size_t)(sqrt(n) / 100))`, `scale = 0.5 + 1.5 * c`,
result `max(4, (size_t)(base * scale))`.  `(size_t)(sqrt(n)/100)` is
`⌊⌊√n⌋ / 100⌋ = isqrt n / 100` (flooring commutes with dividing by
the integer 100). -/
def adaptive_expert_count (c : Dbl) (n : Nat) : Nat :=
  let base := max 4 (isqrt n / 100)
  let scale : Dbl := 1 / 2 + 3 / 2 * c
  max 4 (Dbl.floorNat (dOf base * scale))

/-- `Config::bloom_bits_per_key`: `(size_t)(5 + compression_level * 10)`
— truncation, not rounding. -/
def bloom_bits_per_key (c : Dbl) : Nat :=
  Dbl.floorNat (5 + c * 10)

/-- `HALIv2Index::measure_linearity`: the R² statistic of the fit of
position against key.  The source computes `r = num / sqrt(den_x *
den_y)` and returns `r * r`, which equals `num² / (den_x * den_y)`
exactly — so no square root is needed in the exact model. -/
def measure_linearity (keys : List Nat) : Dbl :=
  if keys.length < 2 then 1 else
  let n : Dbl := dOf keys.length
  let sum_x : Dbl := (keys.map dOf).foldl (· + ·) 0
  let xy := (List.range keys.length).map (fun i => (dOf (keys.getD i 0), dOf i))
  let sum_y : Dbl := (xy.map (fun p => p.2)).foldl (· + ·) 0
  let sum_xy : Dbl := (xy.map (fun p => p.1 * p.2)).foldl (· + ·) 0
  let sum_x2 : Dbl := (keys.map (fun k => dOf k * dOf k)).foldl (· + ·) 0
  let sum_y2 : Dbl := (xy.map (fun p => p.2 * p.2)).foldl (· + ·) 0
  let mean_x := sum_x / n
  let mean_y := sum_y / n
  let num := sum_xy - n * mean_x * mean_y
  let den_x := sum_x2 - n * mean_x * mean_x
  let den_y := sum_y2 - n * mean_y * mean_y
  if den_x < 1 / 10000000000 ∨ den_y < 1 / 10000000000 then 0
  else num * num / (den_x * den_y)

/-- The three expert kinds of `HALIv2Index::ExpertType`. -/
inductive ExpertType
  | PGM
  | RMI
  | ART
deriving DecidableEq, Repr

/-- `HALIv2Index::select_expert_type`: partitions under 100 keys get
ART; otherwise thresholds on the linearity statistic, parameterised by
the compression level. -/
def select_expert_type (c : Dbl) (keys : List Nat) : ExpertType :=
  if keys.length < 100 then .ART
  else
    let linearity := measure_linearity keys
    if c < 3 / 10 then (if 9 / 10 < linearity then .RMI else .ART)
    else if 7 / 10 < c then (if 7 / 10 < linearity then .PGM else .RMI)
    else if 95 / 100 < linearity then .PGM
    else if 8 / 10 < linearity then .RMI
    else .ART

/-! ### HALIv2 index state and operations -/

/-- The full `HALIv2Index` state: router boundaries, experts, Bloom
filters and the two delta-buffer variants (hash for `c < 0.5`, ART
otherwise). -/
structure HALIState where
  compression_level : Dbl
  experts : List Expert
  expert_boundaries : List Nat
  global_bloom : BloomFilter
  expert_blooms : List BloomFilter
  delta_buffer_art : List (Nat × Nat)
  delta_buffer_hash : List (Nat × Nat)
  total_size : Nat
deriving DecidableEq, Repr

/-- A freshly constructed `HALIv2Index(c)`: empty containers and a
default-constructed `BloomFilter(1000, 10)`. -/
def HALIState.init (c : Dbl) : HALIState :=
  { compression_level := c
    experts := []
    expert_boundaries := []
    global_bloom := BloomFilter.build 1000 10
    expert_blooms := []
    delta_buffer_art := []
    delta_buffer_hash := []
    total_size := 0 }

/-- `HALIv2Index::route_to_expert`: `upper_bound` over the boundary
array excluding the sentinel, step back one, clamp to the expert
count. -/
def HALIState.route_to_expert (s : HALIState) (key : Nat) : Nat :=
  if s.experts = [] then 0
  else
    let search := s.expert_boundaries.dropLast
    let ub := upperBoundIdx search key
    if ub = 0 then 0
    else
      let expert_id := ub - 1
      if expert_id ≥ s.experts.length then s.experts.length - 1 else expert_id

/-- Levels 5 and 6 of `HALIv2Index::find`: the per-expert Bloom check
with the range guard, then the expert query (with the source's bounds
check on the routed expert id). -/
def HALIState.expertQuery (s : HALIState) (expert_id key : Nat) : Option Nat :=
  if expert_id ≥ s.experts.length then none
  else
    let ex := s.experts.getD expert_id default
    let blocked :=
      if expert_id < s.expert_blooms.length then
        if (s.expert_blooms.getD expert_id default).containsKey key then false
        else if key < ex.minKey ∨ key > ex.maxKey then true
        else false
      else false
    if blocked then none else ex.find key

/-- `HALIv2Index::find`: delta buffer, then empty-static check, then
global Bloom, then routing, then `expertQuery`.
(`Config::use_bloom_filters` is always `true`.) -/
def HALIState.find (s : HALIState) (key : Nat) : Option Nat :=
  let deltaHit :=
    if s.compression_level < 1 / 2 then amFind s.delta_buffer_hash key
    else amFind s.delta_buffer_art key
  match deltaHit with
  | some v => some v
  | none =>
    if s.experts = [] then none
    else if ¬ s.global_bloom.containsKey key then none
    else s.expertQuery (s.route_to_expert key) key

/-- `HALIv2Index::insert`: reject keys `find` already sees, otherwise
insert into the compression-level-selected delta buffer. -/
def HALIState.insert (s : HALIState) (key value : Nat) : HALIState × Bool :=
  if (s.find key).isSome then (s, false)
  else if s.compression_level < 1 / 2 then
    let r := amInsert s.delta_buffer_hash key value
    ({ s with delta_buffer_hash := r.1 }, r.2)
  else
    let r := amInsert s.delta_buffer_art key value
    ({ s with delta_buffer_art := r.1 }, r.2)

/-- `HALIv2Index::erase`: erase from the delta buffer only. -/
def HALIState.erase (s : HALIState) (key : Nat) : HALIState × Bool :=
  if s.compression_level < 1 / 2 then
    let r := amErase s.delta_buffer_hash key
    ({ s with delta_buffer_hash := r.1 }, r.2)
  else
    let r := amErase s.delta_buffer_art key
    ({ s with delta_buffer_art := r.1 }, r.2)

/-- `HALIv2Index::size`: `total_size_` plus the live delta buffer's
size. -/
def HALIState.size (s : HALIState) : Nat :=
  if s.compression_level < 1 / 2 then s.total_size + s.delta_buffer_hash.length
  else s.total_size + s.delta_buffer_art.length

/-! ### `HALIv2Index::load` -/

/-- How `load` can fail.  `sizeMismatch` is the thrown
`std::invalid_argument`; the other two name undefined behaviour the
C++ exhibits: `emptyInputUB` is `sorted_data.front()` on an empty
vector, and `rangeDivZeroUB` is the `(key - min) / range_per_expert`
division (and subsequent `size_t` cast of NaN/inf) after
`max_key - min_key + 1` wraps to 0 in `uint64_t`. -/
inductive LoadError
  | sizeMismatch
  | emptyInputUB
  | rangeDivZeroUB
deriving DecidableEq, Repr

/-- The lexicographic order `std::sort` uses on `(key, value)` pairs.
Because the comparison inspects the whole pair, the sorted output is
unique, so modelling `std::sort` by insertion sort is exact. -/
def pairLe (a b : Nat × Nat) : Prop := a.1 < b.1 ∨ (a.1 = b.1 ∧ a.2 ≤ b.2)

instance : DecidableRel pairLe := fun a b => by
  unfold pairLe; exact inferInstance

/-- `std::sort(sorted_data.begin(), sorted_data.end())` on the zipped
`(key, value)` pairs. -/
def sortPairs (l : List (Nat × Nat)) : List (Nat × Nat) :=
  List.insertionSort pairLe l

/-- The partition a key is sent to:
`min((size_t)((key - min_global_key) / range_per_expert), num_experts - 1)`. -/
def partition_assignment (key min_g : Nat) (range_per_expert : Dbl) (m : Nat) : Nat :=
  min (Dbl.floorNat (dOf (key - min_g) / range_per_expert)) (m - 1)

/-- The distribution loop of `load`: push each sorted pair into the
bucket `partition_assignment` selects. -/
def distribute (sd : List (Nat × Nat)) (m min_g : Nat) (range_per_expert : Dbl) :
    List (List (Nat × Nat)) :=
  sd.foldl
    (fun buckets kv =>
      let eid := partition_assignment kv.1 min_g range_per_expert m
      buckets.set eid (buckets.getD eid [] ++ [kv]))
    (List.replicate m [])

/-- Insert a list of keys into a Bloom filter in order. -/
def fillBloom (b : BloomFilter) (keys : List Nat) : BloomFilter :=
  keys.foldl BloomFilter.insertKey b

/-- `expected_min = min_global_key + (KeyType)(i * range_per_expert)`
(wrapping `uint64_t` addition). -/
def expected_min_key (min_g : Nat) (range_per_expert : Dbl) (i : Nat) : Nat :=
  (min_g + Dbl.floorNat (dOf i * range_per_expert)) % M64

/-- `expected_max`: `max_global_key` for the last expert, otherwise
`min_global_key + (KeyType)((i+1) * range_per_expert) - 1`, whose
`uint64_t` subtraction can wrap (it does whenever the truncated product
is 0 and `min_global_key` is 0). -/
def expected_max_key (min_g max_g : Nat) (range_per_expert : Dbl) (i m : Nat) : Nat :=
  if i = m - 1 then max_g
  else (min_g + Dbl.floorNat (dOf (i + 1) * range_per_expert) + (M64 - 1)) % M64

/-- Build the expert for one partition: empty partitions become empty
ART placeholders with the expected range; non-empty partitions get the
kind `select_expert_type` picks, with their actual first/last key as
`min_key`/`max_key`. -/
def buildExpert (c : Dbl) (part : List (Nat × Nat)) (expected_min expected_max : Nat) :
    Expert :=
  match part with
  | [] => .art [] expected_min expected_max
  | q :: qrest =>
    let part_keys := (q :: qrest).map (fun p => p.1)
    let part_values := (q :: qrest).map (fun p => p.2)
    let min_key := q.1
    let max_key := ((q :: qrest).getLastD q).1
    match select_expert_type c part_keys with
    | .PGM => .pgm part_keys part_values min_key max_key
    | .RMI => .rmi part_keys part_values min_key max_key
        (LinearModel.train part_keys (List.range part_keys.length))
    | .ART => .art (amOfList (q :: qrest)) min_key max_key

/-- The per-partition Bloom filter: sized for one key and left empty
for empty partitions, otherwise sized for the partition and filled. -/
def buildExpertBloom (bpk : Nat) (part : List (Nat × Nat)) : BloomFilter :=
  match part with
  | [] => BloomFilter.build 1 bpk
  | q :: qrest =>
    fillBloom (BloomFilter.build (q :: qrest).length bpk) ((q :: qrest).map (fun p => p.1))

/-- The number of experts `load` partitions into: one when all keys
are equal, the adaptive count otherwise. -/
def loadExpertCount (p : Nat × Nat) (rest : List (Nat × Nat)) (c : Dbl) (n : Nat) : Nat :=
  if p.1 = ((p :: rest).getLastD p).1 then 1 else adaptive_expert_count c n

/-- The state `load` constructs from the non-empty sorted data
`p :: rest` (`n` is the input length).  Follows the source: adaptive
expert count, single-expert collapse when all keys are equal, range
partitioning by the (exactly modelled) double `range_per_expert`,
expert and Bloom construction, consistent truncated boundaries plus the
(wrapping) sentinel `max_global_key + 1`, and empty delta buffers. -/
def mkLoadedState (p : Nat × Nat) (rest : List (Nat × Nat)) (c : Dbl) (n : Nat) :
    HALIState :=
  let sorted_data := p :: rest
  let bpk := bloom_bits_per_key c
  let min_global_key := p.1
  let max_global_key := (sorted_data.getLastD p).1
  let m := loadExpertCount p rest c n
  let span := (max_global_key - min_global_key + 1) % M64
  let range_per_expert : Dbl := dOf span / dOf m
  let expert_data := distribute sorted_data m min_global_key range_per_expert
  { compression_level := c
    experts := (List.range m).map (fun i =>
      buildExpert c (expert_data.getD i [])
        (expected_min_key min_global_key range_per_expert i)
        (expected_max_key min_global_key max_global_key range_per_expert i m))
    expert_boundaries :=
      ((List.range m).map (expected_min_key min_global_key range_per_expert))
        ++ [(max_global_key + 1) % M64]
    global_bloom :=
      fillBloom (BloomFilter.build n bpk) (sorted_data.map (fun q => q.1))
    expert_blooms := (List.range m).map (fun i =>
      buildExpertBloom bpk (expert_data.getD i []))
    delta_buffer_art := []
    delta_buffer_hash := []
    total_size := n }

/-- `HALIv2Index::load`.  The input-size check is the source's thrown
`std::invalid_argument`; the source performs no duplicate-key
detection; undefined behaviour is surfaced as an explicit
`LoadError`. -/
def load (keys values : List Nat) (c : Dbl) : Except LoadError HALIState :=
  if keys.length ≠ values.length then .error .sizeMismatch
  else
    match sortPairs (keys.zip values) with
    | [] => .error .emptyInputUB
    | p :: rest =>
      if (((p :: rest).getLastD p).1 - p.1 + 1) % M64 = 0 then .error .rangeDivZeroUB
      else .ok (mkLoadedState p rest c keys.length)

/-! ### Operation histories -/

/-- A post-build operation on the index. -/
inductive Op
  | ins (k v : Nat)
  | del (k : Nat)
deriving DecidableEq, Repr

/-- Run one operation, discarding the returned Bool. -/
def applyOp (s : HALIState) : Op → HALIState
  | .ins k v => (s.insert k v).1
  | .del k => (s.erase k).1

/-- Run a history of operations left to right. -/
def applyOps (s : HALIState) (ops : List Op) : HALIState :=
  ops.foldl applyOp s

/-- The keys a history ever inserts. -/
def insertedKeys (ops : List Op) : List Nat :=
  ops.filterMap (fun op => match op with | .ins k _ => some k | .del _ => none)

/-- The delta buffer `find`/`insert`/`erase` actually consult, as
selected by the compression level. -/
def HALIState.deltaList (s : HALIState) : List (Nat × Nat) :=
  if s.compression_level < 1 / 2 then s.delta_buffer_hash else s.delta_buffer_art

/-! ## Soundness lemmas: a found key is a stored key -/

theorem amFind_mem {m : List (Nat × Nat)} {k v : Nat} (h : amFind m k = some v) :
    k ∈ m.map (fun p => p.1) := by
  unfold amFind at h
  cases hf : m.find? (fun p => p.1 = k) with
  | none => rw [hf] at h; simp at h
  | some p =>
    have hp := List.find?_some hf
    have hmem : p ∈ m := List.mem_of_find?_eq_some hf
    simp only [decide_eq_true_eq] at hp
    exact hp ▸ List.mem_map_of_mem _ hmem

/-- The shared shape of the learned experts' bounded search: if the
`lower_bound` result within `[st, sp)` compares equal to the key, the
key is stored. -/
theorem bounded_search_found {keys values : List Nat} {st sp k v : Nat}
    (hsp : sp ≤ keys.length)
    (h : (if lowerBoundIdx keys st sp k < sp ∧ keys.getD (lowerBoundIdx keys st sp k) 0 = k
          then some (values.getD (lowerBoundIdx keys st sp k) 0) else none) = some v) :
    k ∈ keys := by
  by_cases hc : lowerBoundIdx keys st sp k < sp ∧ keys.getD (lowerBoundIdx keys st sp k) 0 = k
  · obtain ⟨hlt, heq⟩ := hc
    have hlen : lowerBoundIdx keys st sp k < keys.length := lt_of_lt_of_le hlt hsp
    rw [List.getD_eq_getElem _ _ hlen] at heq
    exact heq ▸ List.getElem_mem hlen
  · rw [if_neg hc] at h
    exact absurd h (by simp)

theorem Expert.find_mem {e : Expert} {k v : Nat} (h : e.find k = some v) :
    k ∈ e.keyList := by
  cases e with
  | pgm keys values mink maxk =>
    exact bounded_search_found (min_le_right _ _) h
  | rmi keys values mink maxk model =>
    exact bounded_search_found (min_le_right _ _) h
  | art entries mink maxk =>
    exact amFind_mem h

theorem HALIState.expertQuery_sound {s : HALIState} {i k v : Nat}
    (h : s.expertQuery i k = some v) :
    ∃ e ∈ s.experts, k ∈ e.keyList := by
  unfold HALIState.expertQuery at h
  by_cases hge : i ≥ s.experts.length
  · rw [if_pos hge] at h
    exact absurd h (by simp)
  · rw [if_neg hge] at h
    simp only at h
    have hlt : i < s.experts.length := Nat.lt_of_not_le hge
    by_cases hb : (if i < s.expert_blooms.length then
        if (s.expert_blooms.getD i default).containsKey k = true then false
        else if k < (s.experts.getD i default).minKey ∨ k > (s.experts.getD i default).maxKey
          then true else false
      else false) = true
    · rw [if_pos hb] at h
      exact absurd h (by simp)
    · rw [if_neg hb] at h
      refine ⟨s.experts.getD i default, ?_, Expert.find_mem h⟩
      rw [List.getD_eq_getElem _ _ hlt]
      exact List.getElem_mem hlt

theorem HALIState.find_sound {s : HALIState} {k v : Nat} (h : s.find k = some v) :
    k ∈ s.deltaList.map (fun p => p.1) ∨ ∃ e ∈ s.experts, k ∈ e.keyList := by
  unfold HALIState.find at h
  simp only at h
  rw [show (if s.compression_level < 1 / 2 then amFind s.delta_buffer_hash k
        else amFind s.delta_buffer_art k) = amFind s.deltaList k by
      unfold HALIState.deltaList; split <;> rfl] at h
  cases hd : amFind s.deltaList k with
  | some w => exact Or.inl (amFind_mem hd)
  | none =>
    rw [hd] at h
    right
    by_cases h1 : s.experts = []
    · rw [if_pos h1] at h
      exact absurd h (by simp)
    · rw [if_neg h1] at h
      by_cases h2 : ¬ s.global_bloom.containsKey k = true
      · rw [if_pos h2] at h
        exact absurd h (by simp)
      · rw [if_neg h2] at h
        exact HALIState.expertQuery_sound h

/-! ## Inversion of `load` and provenance of stored keys -/

theorem load_ok_elim {keys values : List Nat} {c : Dbl} {s : HALIState}
    (h : load keys values c = .ok s) :
    keys.length = values.length ∧
      ∃ p rest, sortPairs (keys.zip values) = p :: rest ∧
        (((p :: rest).getLastD p).1 - p.1 + 1) % M64 ≠ 0 ∧
        s = mkLoadedState p rest c keys.length := by
  unfold load at h
  split at h
  · exact absurd h (by simp)
  · next hlen =>
    refine ⟨not_not.mp hlen, ?_⟩
    split at h
    · exact absurd h (by simp)
    · next p rest heq =>
      split at h
      · exact absurd h (by simp)
      · next hspan =>
        exact ⟨p, rest, heq, hspan, (Except.ok.injEq _ _ ▸ h).symm⟩

theorem mem_sortPairs {l : List (Nat × Nat)} {x : Nat × Nat} :
    x ∈ sortPairs l ↔ x ∈ l :=
  (List.perm_insertionSort pairLe l).mem_iff

theorem distribute_mem {sd : List (Nat × Nat)} {m g : Nat} {r : Dbl}
    {b : List (Nat × Nat)} {x : Nat × Nat}
    (hb : b ∈ distribute sd m g r) (hx : x ∈ b) : x ∈ sd := by
  suffices hs : ∀ b ∈ distribute sd m g r, ∀ x ∈ b, x ∈ sd from hs b hb x hx
  unfold distribute
  refine List.foldlRecOn (motive := fun buckets => ∀ b ∈ buckets, ∀ x ∈ b, x ∈ sd) sd _ _ ?_ ?_
  · intro b hb x hx
    rw [List.eq_of_mem_replicate hb] at hx
    exact absurd hx (List.not_mem_nil x)
  · intro buckets ih kv hkv b hb x hx
    rcases List.mem_or_eq_of_mem_set hb with hmem | hrfl
    · exact ih b hmem x hx
    · subst hrfl
      rcases List.mem_append.mp hx with hx' | hx'
      · rcases Nat.lt_or_ge (partition_assignment kv.1 g r m) buckets.length with hlt | hge
        · exact ih _ (List.getD_eq_getElem _ _ hlt ▸ List.getElem_mem hlt) x hx'
        · rw [List.getD_eq_default _ _ hge] at hx'
          exact absurd hx' (List.not_mem_nil x)
      · rw [List.mem_singleton.mp hx']
        exact hkv

theorem amAssign_keys_sub {m : List (Nat × Nat)} {k v k' : Nat}
    (h : k' ∈ (amAssign m k v).map (fun p => p.1)) :
    k' ∈ m.map (fun p => p.1) ∨ k' = k := by
  unfold amAssign at h
  split at h
  · rw [List.map_map] at h
    rcases List.mem_map.mp h with ⟨q, hq, hq'⟩
    by_cases hqk : q.1 = k
    · right
      simpa [hqk] using hq'.symm
    · left
      simp only [Function.comp, if_neg hqk] at hq'
      exact hq' ▸ List.mem_map_of_mem _ hq
  · rw [List.map_append] at h
    rcases List.mem_append.mp h with h' | h'
    · exact Or.inl h'
    · right
      simpa using h'

theorem amOfList_keys_sub {l : List (Nat × Nat)} {k : Nat}
    (h : k ∈ (amOfList l).map (fun p => p.1)) : k ∈ l.map (fun p => p.1) := by
  suffices hs : ∀ k, k ∈ (amOfList l).map (fun p => p.1) → k ∈ l.map (fun p => p.1) from
    hs k h
  unfold amOfList
  refine List.foldlRecOn
    (motive := fun (m : List (Nat × Nat)) => ∀ k, k ∈ m.map (fun p => p.1) → k ∈ l.map (fun p => p.1)) l _ _ ?_ ?_
  · intro k hk
    exact absurd hk (by simp)
  · intro mid ih q hq k hk
    rcases amAssign_keys_sub hk with h' | h'
    · exact ih k h'
    · exact h' ▸ List.mem_map_of_mem _ hq

theorem buildExpert_keys_sub {c : Dbl} {part : List (Nat × Nat)} {emin emax k : Nat}
    (h : k ∈ (buildExpert c part emin emax).keyList) :
    k ∈ part.map (fun p => p.1) := by
  cases part with
  | nil =>
    exact absurd h (by simp [buildExpert, Expert.keyList])
  | cons q qrest =>
    have hred : (buildExpert c (q :: qrest) emin emax).keyList
          = ((q :: qrest).map (fun p => p.1)) ∨
        (buildExpert c (q :: qrest) emin emax).keyList
          = ((amOfList (q :: qrest)).map (fun p => p.1)) := by
      unfold buildExpert
      cases hsel : select_expert_type c (q.1 :: qrest.map (fun p => p.1)) <;>
        simp [Expert.keyList, hsel]
    rcases hred with hr | hr
    · rw [hr] at h
      exact h
    · rw [hr] at h
      exact amOfList_keys_sub h

theorem mkLoadedState_static_sub {p : Nat × Nat} {rest : List (Nat × Nat)} {c : Dbl}
    {n : Nat} {e : Expert} {k : Nat}
    (he : e ∈ (mkLoadedState p rest c n).experts) (hk : k ∈ e.keyList) :
    k ∈ (p :: rest).map (fun q => q.1) := by
  simp only [mkLoadedState] at he
  rcases List.mem_map.mp he with ⟨i, _, rfl⟩
  have h1 := buildExpert_keys_sub hk
  rcases List.mem_map.mp h1 with ⟨q, hq, rfl⟩
  refine List.mem_map_of_mem _ ?_
  set dd := distribute (p :: rest) (loadExpertCount p rest c n) p.1
    (dOf ((((p :: rest).getLastD p).1 - p.1 + 1) % M64) / dOf (loadExpertCount p rest c n))
    with hdd
  rcases Nat.lt_or_ge i dd.length with hlt | hge
  · exact distribute_mem (List.getD_eq_getElem _ _ hlt ▸ List.getElem_mem hlt) hq
  · rw [List.getD_eq_default _ _ hge] at hq
    exact absurd hq (List.not_mem_nil q)

/-- Every key an expert of a successfully loaded index stores came from
the input key list. -/
theorem load_static_sub {keys values : List Nat} {c : Dbl} {s : HALIState}
    (h : load keys values c = .ok s) {e : Expert} {k : Nat}
    (he : e ∈ s.experts) (hk : k ∈ e.keyList) : k ∈ keys := by
  obtain ⟨-, p, rest, hsort, -, rfl⟩ := load_ok_elim h
  have h1 := mkLoadedState_static_sub he hk
  rcases List.mem_map.mp h1 with ⟨q, hq, rfl⟩
  have h2 : q ∈ keys.zip values := mem_sortPairs.mp (hsort ▸ hq)
  exact (List.of_mem_zip h2).1

/-! ## Invariance of the static tier under `insert`/`erase` -/

theorem HALIState.insert_experts (s : HALIState) (k v : Nat) :
    ((s.insert k v).1).experts = s.experts := by
  unfold HALIState.insert
  split
  · rfl
  · split <;> rfl

theorem HALIState.erase_experts (s : HALIState) (k : Nat) :
    ((s.erase k).1).experts = s.experts := by
  unfold HALIState.erase
  split <;> rfl

theorem HALIState.insert_compression (s : HALIState) (k v : Nat) :
    ((s.insert k v).1).compression_level = s.compression_level := by
  unfold HALIState.insert
  split
  · rfl
  · split <;> rfl

theorem HALIState.erase_compression (s : HALIState) (k : Nat) :
    ((s.erase k).1).compression_level = s.compression_level := by
  unfold HALIState.erase
  split <;> rfl

theorem HALIState.insert_total_size (s : HALIState) (k v : Nat) :
    ((s.insert k v).1).total_size = s.total_size := by
  unfold HALIState.insert
  split
  · rfl
  · split <;> rfl

theorem HALIState.erase_total_size (s : HALIState) (k : Nat) :
    ((s.erase k).1).total_size = s.total_size := by
  unfold HALIState.erase
  split <;> rfl

theorem applyOp_experts (s : HALIState) (op : Op) : (applyOp s op).experts = s.experts := by
  cases op with
  | ins k v => exact s.insert_experts k v
  | del k => exact s.erase_experts k

theorem applyOp_compression (s : HALIState) (op : Op) :
    (applyOp s op).compression_level = s.compression_level := by
  cases op with
  | ins k v => exact s.insert_compression k v
  | del k => exact s.erase_compression k

theorem applyOp_total_size (s : HALIState) (op : Op) :
    (applyOp s op).total_size = s.total_size := by
  cases op with
  | ins k v => exact s.insert_total_size k v
  | del k => exact s.erase_total_size k

theorem applyOps_experts (s : HALIState) (ops : List Op) :
    (applyOps s ops).experts = s.experts := by
  induction ops generalizing s with
  | nil => rfl
  | cons op rest ih => exact (ih (applyOp s op)).trans (applyOp_experts s op)

theorem applyOps_compression (s : HALIState) (ops : List Op) :
    (applyOps s ops).compression_level = s.compression_level := by
  induction ops generalizing s with
  | nil => rfl
  | cons op rest ih => exact (ih (applyOp s op)).trans (applyOp_compression s op)

theorem applyOps_total_size (s : HALIState) (ops : List Op) :
    (applyOps s ops).total_size = s.total_size := by
  induction ops generalizing s with
  | nil => rfl
  | cons op rest ih => exact (ih (applyOp s op)).trans (applyOp_total_size s op)

/-! ## Evolution of the delta buffer's key set -/

theorem amInsert_keys {m : List (Nat × Nat)} {k v k' : Nat}
    (h : k' ∈ ((amInsert m k v).1).map (fun p => p.1)) :
    k' ∈ m.map (fun p => p.1) ∨ k' = k := by
  unfold amInsert at h
  split at h
  · exact Or.inl h
  · rw [List.map_append] at h
    rcases List.mem_append.mp h with h' | h'
    · exact Or.inl h'
    · right
      simpa using h'

theorem amErase_keys {m : List (Nat × Nat)} {k k' : Nat}
    (h : k' ∈ ((amErase m k).1).map (fun p => p.1)) :
    k' ∈ m.map (fun p => p.1) := by
  unfold amErase at h
  rcases List.mem_map.mp h with ⟨q, hq, rfl⟩
  exact List.mem_map_of_mem _ (List.mem_of_mem_filter hq)

theorem HALIState.deltaList_update_hash (s : HALIState) (l : List (Nat × Nat))
    (hc : s.compression_level < 1 / 2) :
    ({ s with delta_buffer_hash := l } : HALIState).deltaList = l := by
  unfold HALIState.deltaList
  exact if_pos hc

theorem HALIState.deltaList_update_art (s : HALIState) (l : List (Nat × Nat))
    (hc : ¬ s.compression_level < 1 / 2) :
    ({ s with delta_buffer_art := l } : HALIState).deltaList = l := by
  unfold HALIState.deltaList
  exact if_neg hc

theorem HALIState.insert_deltaList_keys {s : HALIState} {k v k' : Nat}
    (h : k' ∈ (((s.insert k v).1).deltaList).map (fun p => p.1)) :
    k' ∈ (s.deltaList).map (fun p => p.1) ∨ k' = k := by
  unfold HALIState.insert at h
  by_cases hf : (s.find k).isSome = true
  · rw [if_pos hf] at h
    exact Or.inl h
  · rw [if_neg hf] at h
    by_cases hc : s.compression_level < 1 / 2
    · rw [if_pos hc] at h
      simp only at h
      rw [HALIState.deltaList_update_hash s _ hc] at h
      rw [show s.deltaList = s.delta_buffer_hash from if_pos hc]
      exact amInsert_keys h
    · rw [if_neg hc] at h
      simp only at h
      rw [HALIState.deltaList_update_art s _ hc] at h
      rw [show s.deltaList = s.delta_buffer_art from if_neg hc]
      exact amInsert_keys h

theorem HALIState.erase_deltaList_keys {s : HALIState} {k k' : Nat}
    (h : k' ∈ (((s.erase k).1).deltaList).map (fun p => p.1)) :
    k' ∈ (s.deltaList).map (fun p => p.1) := by
  unfold HALIState.erase at h
  by_cases hc : s.compression_level < 1 / 2
  · rw [if_pos hc] at h
    simp only at h
    rw [HALIState.deltaList_update_hash s _ hc] at h
    rw [show s.deltaList = s.delta_buffer_hash from if_pos hc]
    exact amErase_keys h
  · rw [if_neg hc] at h
    simp only at h
    rw [HALIState.deltaList_update_art s _ hc] at h
    rw [show s.deltaList = s.delta_buffer_art from if_neg hc]
    exact amErase_keys h

theorem applyOp_deltaList_keys {s : HALIState} {op : Op} {k' : Nat}
    (h : k' ∈ ((applyOp s op).deltaList).map (fun p => p.1)) :
    k' ∈ (s.deltaList).map (fun p => p.1) ∨ ∃ v, op = .ins k' v := by
  cases op with
  | ins k v =>
    rcases HALIState.insert_deltaList_keys h with h' | rfl
    · exact Or.inl h'
    · exact Or.inr ⟨v, rfl⟩
  | del k => exact Or.inl (HALIState.erase_deltaList_keys h)

theorem applyOps_not_in_delta {s : HALIState} {ops : List Op} {k : Nat}
    (hk0 : k ∉ (s.deltaList).map (fun p => p.1)) (hins : k ∉ insertedKeys ops) :
    k ∉ ((applyOps s ops).deltaList).map (fun p => p.1) := by
  induction ops generalizing s with
  | nil => exact hk0
  | cons op rest ih =>
    have hins' : k ∉ insertedKeys rest := by
      intro hmem
      apply hins
      unfold insertedKeys at hmem ⊢
      cases op with
      | ins k0 v0 => exact List.mem_cons_of_mem _ hmem
      | del k0 => exact hmem
    refine ih ?_ hins'
    intro hmem
    rcases applyOp_deltaList_keys hmem with h' | ⟨v, rfl⟩
    · exact hk0 h'
    · exact hins (by simp [insertedKeys])

theorem mkLoadedState_deltaList (p : Nat × Nat) (rest : List (Nat × Nat)) (c : Dbl)
    (n : Nat) : (mkLoadedState p rest c n).deltaList = [] := by
  unfold HALIState.deltaList
  split <;> rfl

/-! ## Exact-map behaviour of the delta buffer -/

theorem amFind_eq_none_iff {m : List (Nat × Nat)} {k : Nat} :
    amFind m k = none ↔ k ∉ m.map (fun p => p.1) := by
  constructor
  · intro h hmem
    rcases List.mem_map.mp hmem with ⟨q, hq, rfl⟩
    unfold amFind at h
    rcases Option.map_eq_none'.mp h with hf
    have := List.find?_eq_none.mp hf q hq
    simp at this
  · intro hmem
    cases hf : amFind m k with
    | none => rfl
    | some v => exact absurd (amFind_mem hf) hmem

theorem amFind_append_self {m : List (Nat × Nat)} {k v : Nat}
    (h : amFind m k = none) : amFind (m ++ [(k, v)]) k = some v := by
  unfold amFind at h ⊢
  rw [List.find?_append, Option.map_eq_none'.mp h]
  simp

theorem amFind_filter_ne (m : List (Nat × Nat)) (k : Nat) :
    amFind (m.filter (fun q => q.1 ≠ k)) k = none := by
  rw [amFind_eq_none_iff]
  intro hmem
  rcases List.mem_map.mp hmem with ⟨q, hq, rfl⟩
  have := (List.mem_filter.mp hq).2
  simp at this

theorem amInsert_of_none {m : List (Nat × Nat)} {k : Nat} (v : Nat)
    (h : amFind m k = none) : amInsert m k v = (m ++ [(k, v)], true) := by
  unfold amInsert
  rw [Option.map_eq_none'.mp h]
  rfl

theorem amErase_ret (m : List (Nat × Nat)) (k : Nat) :
    (amErase m k).2 = (amFind m k).isSome := by
  unfold amErase amFind
  rw [Option.isSome_map']

/-! ## `insert`/`erase`/`find`/`size` through the selected delta buffer -/

theorem HALIState.deltaList_coherent (s : HALIState) (k : Nat) :
    (if s.compression_level < 1 / 2 then amFind s.delta_buffer_hash k
      else amFind s.delta_buffer_art k) = amFind s.deltaList k := by
  unfold HALIState.deltaList
  split <;> rfl

theorem HALIState.find_no_experts {s : HALIState} (h : s.experts = []) (k : Nat) :
    s.find k = amFind s.deltaList k := by
  unfold HALIState.find
  simp only
  rw [HALIState.deltaList_coherent]
  cases hd : amFind s.deltaList k with
  | some v => rfl
  | none => simp [h]

theorem HALIState.insert_deltaList (s : HALIState) (k v : Nat) :
    ((s.insert k v).1).deltaList =
      if (s.find k).isSome then s.deltaList else (amInsert s.deltaList k v).1 := by
  unfold HALIState.insert
  by_cases hf : (s.find k).isSome = true
  · rw [if_pos hf, if_pos hf]
  · rw [if_neg hf, if_neg hf]
    by_cases hc : s.compression_level < 1 / 2
    · rw [if_pos hc]
      simp only
      rw [HALIState.deltaList_update_hash s _ hc,
        show s.deltaList = s.delta_buffer_hash from if_pos hc]
    · rw [if_neg hc]
      simp only
      rw [HALIState.deltaList_update_art s _ hc,
        show s.deltaList = s.delta_buffer_art from if_neg hc]

theorem HALIState.insert_ret (s : HALIState) (k v : Nat) :
    (s.insert k v).2 =
      if (s.find k).isSome then false else (amInsert s.deltaList k v).2 := by
  unfold HALIState.insert
  by_cases hf : (s.find k).isSome = true
  · rw [if_pos hf, if_pos hf]
  · rw [if_neg hf, if_neg hf]
    by_cases hc : s.compression_level < 1 / 2
    · rw [if_pos hc]
      simp only
      rw [show s.deltaList = s.delta_buffer_hash from if_pos hc]
    · rw [if_neg hc]
      simp only
      rw [show s.deltaList = s.delta_buffer_art from if_neg hc]

theorem HALIState.erase_deltaList (s : HALIState) (k : Nat) :
    ((s.erase k).1).deltaList = (amErase s.deltaList k).1 := by
  unfold HALIState.erase
  by_cases hc : s.compression_level < 1 / 2
  · rw [if_pos hc]
    simp only
    rw [HALIState.deltaList_update_hash s _ hc,
      show s.deltaList = s.delta_buffer_hash from if_pos hc]
  · rw [if_neg hc]
    simp only
    rw [HALIState.deltaList_update_art s _ hc,
      show s.deltaList = s.delta_buffer_art from if_neg hc]

theorem HALIState.erase_ret (s : HALIState) (k : Nat) :
    (s.erase k).2 = (amErase s.deltaList k).2 := by
  unfold HALIState.erase
  by_cases hc : s.compression_level < 1 / 2
  · rw [if_pos hc]
    simp only
    rw [show s.deltaList = s.delta_buffer_hash from if_pos hc]
  · rw [if_neg hc]
    simp only
    rw [show s.deltaList = s.delta_buffer_art from if_neg hc]

theorem HALIState.size_eq (s : HALIState) : s.size = s.total_size + s.deltaList.length := by
  unfold HALIState.size HALIState.deltaList
  split <;> rfl

/-- On an index whose static tier is empty, `insert` of an unseen key
succeeds, `find` then sees it, `erase` removes exactly it, and `find`
stops seeing it — the plain-map round trip. -/
theorem HALIState.map_roundtrip {s : HALIState} (hexp : s.experts = []) {k : Nat}
    (v : Nat) (hfind : s.find k = none) :
    (s.insert k v).2 = true ∧
    ((s.insert k v).1).find k = some v ∧
    (((s.insert k v).1).erase k).2 = true ∧
    ((((s.insert k v).1).erase k).1).find k = none := by
  have ham : amFind s.deltaList k = none := by
    rw [HALIState.find_no_experts hexp] at hfind
    exact hfind
  have hnot : ¬ (s.find k).isSome = true := by rw [hfind]; simp
  have hins : (amInsert s.deltaList k v) = (s.deltaList ++ [(k, v)], true) :=
    amInsert_of_none v ham
  have hexp1 : ((s.insert k v).1).experts = [] := (s.insert_experts k v).trans hexp
  have hdl1 : ((s.insert k v).1).deltaList = s.deltaList ++ [(k, v)] := by
    rw [HALIState.insert_deltaList, if_neg hnot, hins]
  have hfind1 : ((s.insert k v).1).find k = some v := by
    rw [HALIState.find_no_experts hexp1, hdl1]
    exact amFind_append_self ham
  refine ⟨?_, hfind1, ?_, ?_⟩
  · rw [HALIState.insert_ret, if_neg hnot, hins]
  · rw [HALIState.erase_ret, amErase_ret, hdl1, amFind_append_self ham]
    rfl
  · have hexp2 : ((((s.insert k v).1).erase k).1).experts = [] :=
      (((s.insert k v).1).erase_experts k).trans hexp1
    rw [HALIState.find_no_experts hexp2, HALIState.erase_deltaList]
    exact amFind_filter_ne _ _

/-! ## Histories over a fresh index as a plain map -/

/-- How one operation updates the "is k present" bit of the plain-map
specification: an insert of k makes it true, an erase of k makes it
false, anything else leaves it. -/
def opUpd (k : Nat) (b : Bool) : Op → Bool
  | .ins k2 _ => b || decide (k2 = k)
  | .del k2 => b && ! decide (k2 = k)

/-- The plain-map specification of "k was inserted and not erased
since": fold the updates over the history, starting absent. -/
def specContains (ops : List Op) (k : Nat) : Bool :=
  ops.foldl (opUpd k) false

theorem filter_keys_mem {m : List (Nat × Nat)} {k k2 : Nat} :
    k ∈ ((m.filter (fun q => q.1 ≠ k2)).map (fun p => p.1)) ↔
      k ∈ m.map (fun p => p.1) ∧ k ≠ k2 := by
  constructor
  · intro h
    rcases List.mem_map.mp h with ⟨q, hq, rfl⟩
    have h2 := (List.mem_filter.mp hq).2
    simp only [ne_eq, decide_not, Bool.not_eq_true', decide_eq_false_iff_not] at h2
    exact ⟨List.mem_map_of_mem _ (List.mem_of_mem_filter hq), h2⟩
  · rintro ⟨h1, h2⟩
    rcases List.mem_map.mp h1 with ⟨q, hq, rfl⟩
    refine List.mem_map_of_mem _ (List.mem_filter.mpr ⟨hq, ?_⟩)
    simpa using h2
/-- One operation on an expert-less index updates the delta key set
exactly as `opUpd` updates the specification bit. -/
theorem applyOp_empty_step {s : HALIState} (hexp : s.experts = []) (op : Op) (k : Nat) :
    decide (k ∈ ((applyOp s op).deltaList).map (fun p => p.1)) =
      opUpd k (decide (k ∈ (s.deltaList).map (fun p => p.1))) op := by
  cases op with
  | ins k2 v =>
    show decide (k ∈ (((s.insert k2 v).1).deltaList).map _) = _
    rw [HALIState.insert_deltaList]
    by_cases hf : (s.find k2).isSome = true
    · rw [if_pos hf]
      have hk2 : k2 ∈ (s.deltaList).map (fun p => p.1) := by
        rw [HALIState.find_no_experts hexp] at hf
        cases hfa : amFind s.deltaList k2 with
        | none => rw [hfa] at hf; simp at hf
        | some w => exact amFind_mem hfa
      unfold opUpd
      by_cases hkk : k2 = k
      · subst hkk
        simp [hk2]
      · simp [hkk]
    · rw [if_neg hf]
      have ham : amFind s.deltaList k2 = none := by
        rw [HALIState.find_no_experts hexp] at hf
        cases hfa : amFind s.deltaList k2 with
        | none => rfl
        | some w => rw [hfa] at hf; simp at hf
      rw [amInsert_of_none v ham]
      unfold opUpd
      simp only [List.map_append]
      by_cases hkk : k2 = k
      · subst hkk
        simp
      · simp [hkk, Ne.symm hkk]
  | del k2 =>
    show decide (k ∈ (((s.erase k2).1).deltaList).map _) = _
    rw [HALIState.erase_deltaList]
    unfold opUpd amErase
    simp only
    by_cases hmem : k ∈ ((s.deltaList.filter (fun q => q.1 ≠ k2)).map (fun p => p.1))
    · rcases filter_keys_mem.mp hmem with ⟨h1, h2⟩
      rw [decide_eq_true hmem, decide_eq_true h1, decide_eq_false (Ne.symm h2)]
      rfl
    · rw [decide_eq_false hmem]
      by_cases h1 : k ∈ (s.deltaList).map (fun p => p.1)
      · have h2 : k = k2 := by
          by_contra hne
          exact hmem (filter_keys_mem.mpr ⟨h1, hne⟩)
        subst h2
        simp [h1]
      · simp [h1]

/-- Over any history applied to an expert-less index with an empty
delta buffer, membership in the delta buffer coincides with the
plain-map specification. -/
theorem applyOps_empty_membership {s : HALIState} (hexp : s.experts = [])
    (hdl : s.deltaList = []) (ops : List Op) (k : Nat) :
    decide (k ∈ ((applyOps s ops).deltaList).map (fun p => p.1)) = specContains ops k := by
  unfold specContains
  have h0 : decide (k ∈ (s.deltaList).map (fun p => p.1)) = false := by
    rw [hdl]
    simp
  rw [show (false : Bool) = decide (k ∈ (s.deltaList).map (fun p => p.1)) from h0.symm]
  clear h0 hdl
  induction ops generalizing s with
  | nil => rfl
  | cons op rest ih =>
    have hexp' : (applyOp s op).experts = [] := (applyOp_experts s op).trans hexp
    calc decide (k ∈ ((applyOps (applyOp s op) rest).deltaList).map (fun p => p.1))
        = List.foldl (opUpd k) (decide (k ∈ ((applyOp s op).deltaList).map (fun p => p.1)))
            rest := ih hexp'
      _ = _ := by rw [applyOp_empty_step hexp op k, List.foldl_cons]

/-- The delta buffer of an expert-less index keeps its keys
duplicate-free under every operation. -/
theorem applyOp_nodup {s : HALIState} (hexp : s.experts = [])
    (hnd : ((s.deltaList).map (fun p => p.1)).Nodup) (op : Op) :
    (((applyOp s op).deltaList).map (fun p => p.1)).Nodup := by
  cases op with
  | ins k2 v =>
    show ((((s.insert k2 v).1).deltaList).map _).Nodup
    rw [HALIState.insert_deltaList]
    by_cases hf : (s.find k2).isSome = true
    · rw [if_pos hf]
      exact hnd
    · rw [if_neg hf]
      have ham : amFind s.deltaList k2 = none := by
        rw [HALIState.find_no_experts hexp] at hf
        cases hfa : amFind s.deltaList k2 with
        | none => rfl
        | some w => rw [hfa] at hf; simp at hf
      rw [amInsert_of_none v ham]
      have hk2 : k2 ∉ (s.deltaList).map (fun p => p.1) := amFind_eq_none_iff.mp ham
      simp only [List.map_append]
      rw [List.nodup_append]
      refine ⟨hnd, List.nodup_singleton _, ?_⟩
      intro a ha hb
      simp only [List.map_cons, List.map_nil, List.mem_singleton] at hb
      exact hk2 (hb ▸ ha)
  | del k2 =>
    show ((((s.erase k2).1).deltaList).map _).Nodup
    rw [HALIState.erase_deltaList]
    unfold amErase
    simp only
    exact hnd.sublist ((List.filter_sublist _).map _)

theorem applyOps_nodup {s : HALIState} (hexp : s.experts = [])
    (hnd : ((s.deltaList).map (fun p => p.1)).Nodup) (ops : List Op) :
    (((applyOps s ops).deltaList).map (fun p => p.1)).Nodup := by
  induction ops generalizing s with
  | nil => exact hnd
  | cons op rest ih =>
    exact ih ((applyOp_experts s op).trans hexp) (applyOp_nodup hexp hnd op)

/-! ## Bloom filter probe lemmas -/

theorem getD_set_self {l : List Nat} {i a d : Nat} (h : i < l.length) :
    (l.set i a).getD i d = a := by
  simp [List.getD, List.getElem?_set_self h]

theorem getD_set_ne {l : List Nat} {i j a d : Nat} (h : i ≠ j) :
    (l.set i a).getD j d = l.getD j d := by
  simp [List.getD, List.getElem?_set_ne h]

theorem bit_test_or_self (w bi : Nat) : (w ||| 1 <<< bi) &&& 1 <<< bi ≠ 0 := by
  rw [Nat.one_shiftLeft, Nat.and_two_pow]
  simp [Nat.testBit_two_pow_self]

theorem bit_test_or_mono {w bi : Nat} (x : Nat) (h : w &&& 1 <<< bi ≠ 0) :
    (w ||| x) &&& 1 <<< bi ≠ 0 := by
  rw [Nat.one_shiftLeft, Nat.and_two_pow] at h ⊢
  rcases hb : w.testBit bi with _ | _
  · rw [hb] at h
    simp at h
  · simp [Nat.testBit_lor, hb]

/-- The word-array update step of `BloomFilter::insert` for one probe
position. -/
def setBitStep (bs : List Nat) (pos : Nat) : List Nat :=
  bs.set (pos / 64) ((bs.getD (pos / 64) 0) ||| (1 <<< (pos % 64)))

theorem setBitStep_length (bs : List Nat) (pos : Nat) :
    (setBitStep bs pos).length = bs.length := List.length_set bs _ _

theorem setBitStep_mono {bs : List Nat} {q : Nat} (pos : Nat)
    (h : bs.getD (q / 64) 0 &&& 1 <<< (q % 64) ≠ 0) :
    (setBitStep bs pos).getD (q / 64) 0 &&& 1 <<< (q % 64) ≠ 0 := by
  unfold setBitStep
  by_cases hq : pos / 64 = q / 64
  · rw [← hq] at h ⊢
    by_cases hlen : pos / 64 < bs.length
    · rw [getD_set_self hlen]
      exact bit_test_or_mono _ h
    · rw [List.set_eq_of_length_le (Nat.le_of_not_lt hlen)]
      exact h
  · rw [getD_set_ne hq]
    exact h

theorem setBitStep_sets {bs : List Nat} {pos : Nat} (hlen : pos / 64 < bs.length) :
    (setBitStep bs pos).getD (pos / 64) 0 &&& 1 <<< (pos % 64) ≠ 0 := by
  unfold setBitStep
  rw [getD_set_self hlen]
  exact bit_test_or_self _ _

theorem foldl_setBitStep_length (L : List Nat) (posOf : Nat → Nat) (bs : List Nat) :
    (L.foldl (fun acc i => setBitStep acc (posOf i)) bs).length = bs.length := by
  induction L generalizing bs with
  | nil => rfl
  | cons i L ih => exact (ih _).trans (setBitStep_length bs (posOf i))

theorem foldl_setBitStep_mono {L : List Nat} {posOf : Nat → Nat} {bs : List Nat} {q : Nat}
    (h : bs.getD (q / 64) 0 &&& 1 <<< (q % 64) ≠ 0) :
    (L.foldl (fun acc i => setBitStep acc (posOf i)) bs).getD (q / 64) 0
      &&& 1 <<< (q % 64) ≠ 0 := by
  induction L generalizing bs with
  | nil => exact h
  | cons i L ih => exact ih (setBitStep_mono (posOf i) h)

theorem foldl_setBitStep_sets {L : List Nat} {posOf : Nat → Nat} {bs : List Nat}
    (hlen : ∀ j ∈ L, posOf j / 64 < bs.length) :
    ∀ j ∈ L, (L.foldl (fun acc i => setBitStep acc (posOf i)) bs).getD (posOf j / 64) 0
      &&& 1 <<< (posOf j % 64) ≠ 0 := by
  induction L generalizing bs with
  | nil => intro j hj; exact absurd hj (List.not_mem_nil j)
  | cons i L ih =>
    intro j hj
    rw [List.foldl_cons]
    rcases List.mem_cons.mp hj with rfl | hj'
    · exact foldl_setBitStep_mono (setBitStep_sets (hlen j (List.mem_cons_self _ _)))
    · refine ih ?_ j hj'
      intro j' hj'
      rw [setBitStep_length]
      exact hlen j' (List.mem_cons_of_mem _ hj')

theorem BloomFilter.insertKey_num_bits (b : BloomFilter) (key : Nat) :
    (b.insertKey key).num_bits = b.num_bits := rfl

theorem BloomFilter.insertKey_num_hash (b : BloomFilter) (key : Nat) :
    (b.insertKey key).num_hash_functions = b.num_hash_functions := rfl

theorem BloomFilter.insertKey_bits_length (b : BloomFilter) (key : Nat) :
    (b.insertKey key).bits.length = b.bits.length := by
  unfold BloomFilter.insertKey
  simp only
  exact foldl_setBitStep_length _ (fun i => bloomProbe key i b.num_bits) b.bits

/-- A key just inserted is always reported present: the `insert` and
`contains` probe sequences coincide, and `insert` only ever sets
bits. -/
theorem BloomFilter.insertKey_containsKey (b : BloomFilter) (key : Nat)
    (hw : b.num_bits = 64 * b.bits.length) (hnz : b.num_bits ≠ 0) :
    (b.insertKey key).containsKey key = true := by
  unfold BloomFilter.containsKey
  rw [List.all_eq_true]
  intro i hi
  simp only [BloomFilter.insertKey_num_bits, BloomFilter.insertKey_num_hash] at hi ⊢
  simp only [decide_eq_true_eq]
  have hlen : ∀ j ∈ List.range b.num_hash_functions,
      bloomProbe key j b.num_bits / 64 < b.bits.length := by
    intro j _
    have hpos : bloomProbe key j b.num_bits < b.num_bits :=
      Nat.mod_lt _ (Nat.pos_of_ne_zero hnz)
    have hpos2 : bloomProbe key j b.num_bits < 64 * b.bits.length := by omega
    exact Nat.div_lt_of_lt_mul hpos2
  exact foldl_setBitStep_sets hlen i hi

theorem fillBloom_num_bits (b : BloomFilter) (ks : List Nat) :
    (fillBloom b ks).num_bits = b.num_bits := by
  induction ks generalizing b with
  | nil => rfl
  | cons k ks ih => exact (ih _).trans (b.insertKey_num_bits k)

theorem fillBloom_num_hash (b : BloomFilter) (ks : List Nat) :
    (fillBloom b ks).num_hash_functions = b.num_hash_functions := by
  induction ks generalizing b with
  | nil => rfl
  | cons k ks ih => exact (ih _).trans (b.insertKey_num_hash k)

theorem BloomFilter.build_num_bits (n bpk : Nat) :
    (BloomFilter.build n bpk).num_bits = ((n * bpk + 63) / 64) * 64 := rfl

theorem BloomFilter.build_num_hash (n bpk : Nat) :
    (BloomFilter.build n bpk).num_hash_functions = max 1 (bpk * 693 / 1000) := rfl

theorem BloomFilter.build_wf (n bpk : Nat) :
    (BloomFilter.build n bpk).num_bits = 64 * (BloomFilter.build n bpk).bits.length := by
  unfold BloomFilter.build
  simp only [List.length_replicate]
  rw [Nat.mul_div_cancel _ (by norm_num : 0 < 64)]
  exact (Nat.mul_comm _ _)

/-! ## Order facts about the sorted input -/

instance : IsTotal (Nat × Nat) pairLe :=
  ⟨by
    intro a b
    unfold pairLe
    omega⟩

instance : IsTrans (Nat × Nat) pairLe :=
  ⟨by
    intro a b c hab hbc
    unfold pairLe at *
    omega⟩

theorem sortPairs_sorted (l : List (Nat × Nat)) : List.Sorted pairLe (sortPairs l) :=
  List.sorted_insertionSort pairLe l

theorem pairLe_fst {a b : Nat × Nat} (h : pairLe a b) : a.1 ≤ b.1 := by
  unfold pairLe at h
  omega

theorem sorted_head_le_fst {p : Nat × Nat} {rest : List (Nat × Nat)} {a : Nat × Nat}
    (hs : List.Sorted pairLe (p :: rest)) (ha : a ∈ p :: rest) : p.1 ≤ a.1 := by
  rcases List.mem_cons.mp ha with rfl | ha'
  · exact le_refl _
  · exact pairLe_fst ((List.sorted_cons.mp hs).1 a ha')

theorem getLastD_cons_mem (p : Nat × Nat) (rest : List (Nat × Nat)) :
    (p :: rest).getLastD p ∈ p :: rest := by
  induction rest generalizing p with
  | nil => exact List.mem_singleton.mpr rfl
  | cons q rest ih =>
    rw [List.getLastD_cons]
    exact List.mem_cons_of_mem _ (ih q)

theorem sorted_le_last_fst {p : Nat × Nat} {rest : List (Nat × Nat)}
    (hs : List.Sorted pairLe (p :: rest)) :
    ∀ a ∈ p :: rest, a.1 ≤ ((p :: rest).getLastD p).1 := by
  induction rest generalizing p with
  | nil =>
    intro a ha
    rw [List.mem_singleton.mp ha]
    exact Nat.le.refl
  | cons q rest ih =>
    intro a ha
    rw [List.getLastD_cons]
    have hs' : List.Sorted pairLe (q :: rest) := (List.sorted_cons.mp hs).2
    rcases List.mem_cons.mp ha with rfl | ha'
    · exact le_trans (pairLe_fst ((List.sorted_cons.mp hs).1 q (List.mem_cons_self _ _)))
        (ih hs' q (List.mem_cons_self _ _))
    · exact ih hs' a ha'

/-- With equal-length inputs, every input key occurs as the first
component of a zipped pair. -/
theorem mem_keys_zip {keys values : List Nat} {k : Nat}
    (hlen : keys.length = values.length) (hk : k ∈ keys) :
    ∃ q ∈ keys.zip values, q.1 = k := by
  have hmap : (keys.zip values).map Prod.fst = keys :=
    List.map_fst_zip _ _ (le_of_eq hlen)
  rw [← hmap] at hk
  rcases List.mem_map.mp hk with ⟨q, hq, hq1⟩
  exact ⟨q, hq, hq1⟩

/-! ## Field lemmas for a freshly loaded state -/

theorem mkLoadedState_total_size (p : Nat × Nat) (rest : List (Nat × Nat)) (c : Dbl)
    (n : Nat) : (mkLoadedState p rest c n).total_size = n := rfl

theorem mkLoadedState_compression (p : Nat × Nat) (rest : List (Nat × Nat)) (c : Dbl)
    (n : Nat) : (mkLoadedState p rest c n).compression_level = c := rfl

theorem mkLoadedState_size (p : Nat × Nat) (rest : List (Nat × Nat)) (c : Dbl)
    (n : Nat) : (mkLoadedState p rest c n).size = n := by
  rw [HALIState.size_eq, mkLoadedState_deltaList, mkLoadedState_total_size]
  rfl

theorem mkLoadedState_experts_length (p : Nat × Nat) (rest : List (Nat × Nat)) (c : Dbl)
    (n : Nat) : (mkLoadedState p rest c n).experts.length = loadExpertCount p rest c n := by
  simp [mkLoadedState]

theorem mkLoadedState_global_bloom (p : Nat × Nat) (rest : List (Nat × Nat)) (c : Dbl)
    (n : Nat) :
    (mkLoadedState p rest c n).global_bloom =
      fillBloom (BloomFilter.build n (bloom_bits_per_key c))
        ((p :: rest).map (fun q => q.1)) := rfl

theorem adaptive_expert_count_ge (c : Dbl) (n : Nat) : 4 ≤ adaptive_expert_count c n :=
  Nat.le_max_left 4 _

/-- Shared argument for the amended build theorems: with equal-length,
non-empty, in-range input that does not span the whole `uint64_t`
domain, `load` succeeds, and the sorted data and key extrema are as
expected. -/
theorem load_succeeds {keys values : List Nat} {c : Dbl}
    (hlen : keys.length = values.length) (hne : keys ≠ [])
    (hu : ∀ k ∈ keys, k < M64)
    (hnw : ¬ (0 ∈ keys ∧ M64 - 1 ∈ keys)) :
    ∃ p rest, sortPairs (keys.zip values) = p :: rest ∧
      load keys values c = .ok (mkLoadedState p rest c keys.length) := by
  have hzlen : (keys.zip values).length = keys.length := by
    rw [List.length_zip, hlen, Nat.min_self]
  have hslen : (sortPairs (keys.zip values)).length = keys.length :=
    ((List.perm_insertionSort pairLe _).length_eq).trans hzlen
  cases hs : sortPairs (keys.zip values) with
  | nil =>
    rw [hs] at hslen
    exact absurd (List.length_eq_zero.mp hslen.symm) hne
  | cons p rest =>
    refine ⟨p, rest, rfl, ?_⟩
    have hp1 : p.1 ∈ keys := by
      have : p ∈ keys.zip values :=
        mem_sortPairs.mp (hs ▸ List.mem_cons_self p rest)
      exact (List.of_mem_zip this).1
    have hlast := getLastD_cons_mem p rest
    have hlast1 : ((p :: rest).getLastD p).1 ∈ keys := by
      have : (p :: rest).getLastD p ∈ keys.zip values :=
        mem_sortPairs.mp (hs ▸ hlast)
      exact (List.of_mem_zip this).1
    have hple : p.1 ≤ ((p :: rest).getLastD p).1 :=
      sorted_le_last_fst (hs ▸ sortPairs_sorted (keys.zip values)) p
        (List.mem_cons_self p rest)
    have hlt : ((p :: rest).getLastD p).1 < M64 := hu _ hlast1
    have hspan : (((p :: rest).getLastD p).1 - p.1 + 1) % M64 ≠ 0 := by
      have hcases : ((p :: rest).getLastD p).1 - p.1 + 1 < M64 ∨
          (p.1 = 0 ∧ ((p :: rest).getLastD p).1 = M64 - 1) := by
        have hM : 0 < M64 := by
          unfold M64
          positivity
        omega
      rcases hcases with hlt' | ⟨h0, hM1⟩
      · rw [Nat.mod_eq_of_lt hlt']
        omega
      · exact absurd ⟨h0 ▸ hp1, hM1 ▸ hlast1⟩ hnw
    unfold load
    rw [if_neg (by rw [hlen]; exact fun h => h rfl), hs]
    exact if_neg hspan

/-! ## The claims -/

/-- The executable adjacent-pairs check for spec invariant I1:
`l[i] < l[i+1]` for every consecutive pair. -/
def strictlyIncreasing (l : List Nat) : Bool :=
  (l.zip l.tail).all (fun q => q.1 < q.2)

/-- C1.  The claim says that after a successful `build(keys, values)`
with n unique keys, `len() = n` and `find(keys[i]) = Some(values[i])`
for every i.  The code violates it: building from `keys = [0, 1]`,
`values = [10, 20]` at compression level 0 succeeds with `len() = 2`,
but `find(0)` and `find(1)` both return `None` — the distribution step
places key 0 in partition 0 and key 1 in partition 2, while the
truncated boundary array `[0, 0, 1, 1]` routes them to the empty
partitions 1 and 3. -/
theorem C1_find_misses_built_keys :
    (load [0, 1] [10, 20] 0).toOption.map (fun s => (s.size, s.find 0, s.find 1))
      = some (2, none, none) := by
  decide

/-- C2.  The claim says the boundary array is strictly increasing and
every stored key lies in its partition's boundary range, so routing
alone identifies the containing partition.  The code violates all three
parts on `keys = [0, 1]`, c = 0: the boundaries are `[0, 0, 1, 1]` plus
sentinel 2 (not strictly increasing); key 1 is stored in partition 2
although `boundaries[2] ≤ 1 < boundaries[3]` fails (`1 < 1` is false);
and the router sends key 1 to partition 3, not 2. -/
theorem C2_router_invariant_violated :
    (load [0, 1] [10, 20] 0).toOption.map
        (fun s => (s.expert_boundaries, (s.experts.getD 2 default).keyList,
          s.route_to_expert 1))
      = some ([0, 0, 1, 1, 2], [1], 3) ∧
    strictlyIncreasing [0, 0, 1, 1, 2] = false ∧
    ¬ ((1 : Nat) ≤ 1 ∧ 1 < 1) := by
  decide

/-- C3 counterexample.  The claim says `build` fails with
`DuplicateKey` on inputs containing a repeated key and leaves the state
unchanged.  The code has no duplicate detection at all: loading
`keys = [5, 5]` (a duplicated key) succeeds and installs a state of
size 2. -/
theorem C3_duplicate_build_succeeds :
    ¬ ([5, 5] : List Nat).Nodup ∧
    (load [5, 5] [1, 2] 0).toOption.map (fun s => s.size) = some 2 := by
  decide

/-- C3 amended.  `build` performs no duplicate detection: for every
pair of equal-length, non-empty sequences whose keys contain a
duplicate (are within the 64-bit domain and do not span it entirely),
`build` succeeds — no `DuplicateKey` error exists — and the index is
rebuilt with `len()` counting every input pair, duplicates included. -/
theorem C3_no_duplicate_detection (keys values : List Nat) (c : Dbl)
    (hlen : keys.length = values.length) (hne : keys ≠ [])
    (hdup : ¬ keys.Nodup)
    (hu : ∀ k ∈ keys, k < M64)
    (hnw : ¬ (0 ∈ keys ∧ M64 - 1 ∈ keys)) :
    ∃ s, load keys values c = .ok s ∧ s.size = keys.length := by
  obtain ⟨p, rest, -, hok⟩ := load_succeeds (c := c) hlen hne hu hnw
  exact ⟨_, hok, mkLoadedState_size _ _ _ _⟩

theorem C3_no_duplicate_detection_witness :
    ([7, 7, 9] : List Nat).length = ([1, 2, 3] : List Nat).length ∧
    ¬ ([7, 7, 9] : List Nat).Nodup ∧
    (∃ s, load [7, 7, 9] [1, 2, 3] ⟨1, 2⟩ = .ok s ∧ s.size = 3) :=
  ⟨by decide, by decide,
    C3_no_duplicate_detection [7, 7, 9] [1, 2, 3] ⟨1, 2⟩ (by decide) (by decide)
      (by decide) (by decide) (by decide)⟩

/-- C4.  The claim says `build` with empty inputs succeeds and leaves a
valid empty index.  The code instead calls `sorted_data.front()` on an
empty vector — undefined behaviour, surfaced in the model as the
`emptyInputUB` error — for every compression level. -/
theorem C4_empty_build_ub (c : Dbl) : load [] [] c = .error .emptyInputUB := rfl

/-- C5.  Exactness of `find`: for every build input, every history of
`insert`/`erase` operations, and every key `k` neither present in the
build input nor inserted by the history, `find k` returns `None` —
`find` never produces a false positive.  (Every path that returns a
value first confirms the key by exact comparison against stored
data.) -/
theorem C5_find_exactness (keys values : List Nat) (c : Dbl) (ops : List Op) (k : Nat)
    (s₀ : HALIState) (hload : load keys values c = .ok s₀)
    (hk : k ∉ keys) (hins : k ∉ insertedKeys ops) :
    (applyOps s₀ ops).find k = none := by
  cases hfind : (applyOps s₀ ops).find k with
  | none => rfl
  | some v =>
    exfalso
    rcases HALIState.find_sound hfind with hdelta | ⟨e, he, hke⟩
    · have h0 : k ∉ (s₀.deltaList).map (fun p => p.1) := by
        obtain ⟨-, p, rest, -, -, rfl⟩ := load_ok_elim hload
        rw [mkLoadedState_deltaList]
        simp
      exact applyOps_not_in_delta h0 hins hdelta
    · rw [applyOps_experts] at he
      exact hk (load_static_sub hload he hke)

theorem C5_find_exactness_witness :
    (3 ∉ ([0, 1] : List Nat)) ∧ 3 ∉ insertedKeys [Op.ins 5 7] ∧
    (applyOps ((load [0, 1] [10, 20] 0).toOption.getD (HALIState.init 0))
      [Op.ins 5 7]).find 3 = none :=
  ⟨by decide, by decide,
    C5_find_exactness [0, 1] [10, 20] 0 [Op.ins 5 7] 3
      ((load [0, 1] [10, 20] 0).toOption.getD (HALIState.init 0))
      (by rfl) (by decide) (by decide)⟩

/-- C6.  The claim says `insert(k, v)` returns `true` iff k was not
already present in either tier.  The code violates the "only if"
direction: after building from `keys = [0, 1]` at c = 0, key 1 *is*
stored in the static tier (partition 2's key array is `[1]`), yet
`insert(1, 99)` returns `true` and places `(1, 99)` in the delta
buffer, because the existence check goes through the broken `find`. -/
theorem C6_insert_true_for_static_key :
    (load [0, 1] [10, 20] 0).toOption.map
        (fun s => ((s.experts.getD 2 default).keyList, (s.insert 1 99).2,
          ((s.insert 1 99).1).deltaList))
      = some ([1], true, [(1, 99)]) := by
  decide

/-- C7.  The claim says that for a key that came from build,
`erase(k)` returns `false` and `find(k)` still returns the built
value.  After building from `keys = [0, 1]`, `values = [10, 20]` at
c = 0, key 1 came from build and `erase(1)` indeed returns `false`,
but `find(1)` returns `None` instead of `Some(20)`. -/
theorem C7_built_value_lost :
    (load [0, 1] [10, 20] 0).toOption.map
        (fun s => ((s.experts.getD 2 default).keyList, (s.erase 1).2, s.find 1))
      = some ([1], false, none) := by
  decide

/-- C8 counterexample.  The claim says the number of partitions m is at
most n and `m = min(4, n)` for n < 4.  Building n = 2 keys at c = 0.5
creates m = 5 partitions: 5 > 2 and 5 ≠ min(4, 2). -/
theorem C8_expert_count_exceeds_n :
    (load [0, 1] [10, 20] ⟨1, 2⟩).toOption.map (fun s => s.experts.length) = some 5 ∧
    ¬ (5 ≤ 2) ∧ min 4 2 = 2 ∧ (5 : Nat) ≠ 2 := by
  decide

/-- C8 amended.  The expert count is never clamped to n: for every
equal-length input containing two distinct keys (within the 64-bit
domain, not spanning it entirely), build succeeds with exactly
`adaptive_expert_count c n` partitions, which is always at least 4 —
so for n < 4 it exceeds n rather than being `min(4, n)`. -/
theorem C8_no_expert_clamp (keys values : List Nat) (c : Dbl) (k₁ k₂ : Nat)
    (hlen : keys.length = values.length)
    (h1 : k₁ ∈ keys) (h2 : k₂ ∈ keys) (hne : k₁ ≠ k₂)
    (hu : ∀ k ∈ keys, k < M64)
    (hnw : ¬ (0 ∈ keys ∧ M64 - 1 ∈ keys)) :
    ∃ s, load keys values c = .ok s ∧
      s.experts.length = adaptive_expert_count c keys.length ∧
      4 ≤ s.experts.length := by
  obtain ⟨p, rest, hs, hok⟩ :=
    load_succeeds (c := c) hlen (List.ne_nil_of_mem h1) hu hnw
  have hsorted := hs ▸ sortPairs_sorted (keys.zip values)
  obtain ⟨q1, hq1z, hq11⟩ := mem_keys_zip hlen h1
  obtain ⟨q2, hq2z, hq21⟩ := mem_keys_zip hlen h2
  have hq1s : q1 ∈ p :: rest := hs ▸ mem_sortPairs.mpr hq1z
  have hq2s : q2 ∈ p :: rest := hs ▸ mem_sortPairs.mpr hq2z
  have hminmax : p.1 ≠ ((p :: rest).getLastD p).1 := by
    intro heq
    have b1 := sorted_head_le_fst hsorted hq1s
    have c1 := sorted_le_last_fst hsorted q1 hq1s
    have b2 := sorted_head_le_fst hsorted hq2s
    have c2 := sorted_le_last_fst hsorted q2 hq2s
    apply hne
    omega
  have hcount : (mkLoadedState p rest c keys.length).experts.length
      = adaptive_expert_count c keys.length := by
    rw [mkLoadedState_experts_length]
    unfold loadExpertCount
    rw [if_neg hminmax]
  exact ⟨_, hok, hcount, hcount ▸ adaptive_expert_count_ge c keys.length⟩

theorem C8_no_expert_clamp_witness :
    (3 ∈ ([3, 7] : List Nat)) ∧ 7 ∈ ([3, 7] : List Nat) ∧ (3 : Nat) ≠ 7 ∧
    (∃ s, load [3, 7] [30, 70] ⟨1, 2⟩ = .ok s ∧
      s.experts.length = adaptive_expert_count ⟨1, 2⟩ 2 ∧
      4 ≤ s.experts.length) :=
  ⟨by decide, by decide, by decide,
    C8_no_expert_clamp [3, 7] [30, 70] ⟨1, 2⟩ 3 7 (by decide) (by decide) (by decide)
      (by decide) (by decide) (by decide)⟩

/-- C9 counterexample.  The claim's two rounding formulas do not match
the code.  Probe count: `BloomFilter(1000, 10)` (the default) uses
`max(1, (size_t)(10 * 0.693)) = 6` probes, while the claim's
`max(1, round(10 * ln 2)) = 7`.  Bits per key: at compression level
0.55 HALI uses `(size_t)(5 + 10 * 0.55) = 10` bits/key, while the
claim's `round(5 + 10 * 0.55) = 11`. -/
theorem C9_rounding_mismatch :
    (BloomFilter.build 1000 10).num_hash_functions = 6 ∧
    max 1 (round ((10 : ℝ) * Real.log 2)) = 7 ∧
    (6 : ℤ) ≠ 7 ∧
    bloom_bits_per_key ⟨11, 20⟩ = 10 ∧
    Dbl.toRat ⟨11, 20⟩ = 11 / 20 ∧
    round ((5 : ℚ) + 10 * (11 / 20)) = 11 ∧
    (10 : ℤ) ≠ 11 := by
  refine ⟨by decide, ?_, by decide, by decide, ?_, ?_, by decide⟩
  · have h1 := Real.log_two_gt_d9
    have h2 := Real.log_two_lt_d9
    have hr : round ((10 : ℝ) * Real.log 2) = 7 := by
      rw [round_eq, Int.floor_eq_iff]
      constructor
      · push_cast
        nlinarith
      · push_cast
        nlinarith
    rw [hr]
    norm_num
  · norm_num [Dbl.toRat]
  · rw [round_eq]
    norm_num

/-- C9 amended.  A Bloom filter built for `n` expected keys allocates
`n * bits_per_key` bits rounded up to a multiple of 64, uses exactly
`max(1, ⌊bits_per_key * 0.693⌋)` double-hashing probes (truncation of
the `0.693` product, not `round(bits_per_key·ln 2)`), at positions
`(h1 + i·h2) mod m_bits` shared by insert and contains — so an inserted
key is always reported present — and HALI sizes its global filter with
`bits_per_key = ⌊5 + 10c⌋` (truncation, not rounding). -/
theorem C9_bloom_parameters (n bpk key : Nat) (keys values : List Nat) (c : Dbl)
    (s : HALIState) (hn : 1 ≤ n) (hb : 1 ≤ bpk)
    (hload : load keys values c = .ok s) :
    (BloomFilter.build n bpk).num_bits = ((n * bpk + 63) / 64) * 64 ∧
    (BloomFilter.build n bpk).num_hash_functions = max 1 (bpk * 693 / 1000) ∧
    ((BloomFilter.build n bpk).insertKey key).containsKey key = true ∧
    s.global_bloom.num_bits = ((keys.length * bloom_bits_per_key c + 63) / 64) * 64 ∧
    s.global_bloom.num_hash_functions = max 1 (bloom_bits_per_key c * 693 / 1000) := by
  have hnz : (BloomFilter.build n bpk).num_bits ≠ 0 := by
    rw [BloomFilter.build_num_bits]
    have h1 : 1 * 1 ≤ n * bpk := Nat.mul_le_mul hn hb
    omega
  obtain ⟨-, p, rest, -, -, rfl⟩ := load_ok_elim hload
  refine ⟨rfl, rfl,
    BloomFilter.insertKey_containsKey _ _ (BloomFilter.build_wf n bpk) hnz, ?_, ?_⟩
  · rw [mkLoadedState_global_bloom, fillBloom_num_bits, BloomFilter.build_num_bits]
  · rw [mkLoadedState_global_bloom, fillBloom_num_hash, BloomFilter.build_num_hash]

theorem C9_bloom_parameters_witness :
    (1 : Nat) ≤ 1 ∧ (1 : Nat) ≤ 5 ∧
    ((BloomFilter.build 1 5).num_bits = ((1 * 5 + 63) / 64) * 64 ∧
      (BloomFilter.build 1 5).num_hash_functions = max 1 (5 * 693 / 1000) ∧
      ((BloomFilter.build 1 5).insertKey 42).containsKey 42 = true ∧
      ((load [0, 1] [10, 20] 0).toOption.getD (HALIState.init 0)).global_bloom.num_bits
        = ((([0, 1] : List Nat).length * bloom_bits_per_key 0 + 63) / 64) * 64 ∧
      ((load [0, 1] [10, 20] 0).toOption.getD (HALIState.init 0)).global_bloom.num_hash_functions
        = max 1 (bloom_bits_per_key 0 * 693 / 1000)) :=
  ⟨by decide, by decide,
    C9_bloom_parameters 1 5 42 [0, 1] [10, 20] 0
      ((load [0, 1] [10, 20] 0).toOption.getD (HALIState.init 0))
      (by decide) (by decide) (by rfl)⟩

/-- C10.  On a freshly constructed index on which `build` was never
called, the operations behave as a plain map through the delta buffer
alone: inserting an unseen key returns `true` and `find` then sees it,
a following `erase` returns `true` and `find` stops seeing it; `len()`
equals the delta buffer's size, whose keys are duplicate-free and are
exactly the keys inserted and not yet erased by the history. -/
theorem C10_fresh_plain_map (c : Dbl) (ops : List Op) (k v : Nat) :
    let s := applyOps (HALIState.init c) ops
    (s.find k = none →
      (s.insert k v).2 = true ∧ ((s.insert k v).1).find k = some v ∧
      (((s.insert k v).1).erase k).2 = true ∧
      ((((s.insert k v).1).erase k).1).find k = none) ∧
    s.size = s.deltaList.length ∧
    ((s.deltaList).map (fun p => p.1)).Nodup ∧
    (∀ k', k' ∈ (s.deltaList).map (fun p => p.1) ↔ specContains ops k' = true) := by
  intro s
  have hexp : s.experts = [] := (applyOps_experts _ _).trans rfl
  have hdl0 : (HALIState.init c).deltaList = [] := by
    unfold HALIState.deltaList
    split <;> rfl
  refine ⟨fun hfind => HALIState.map_roundtrip hexp v hfind, ?_, ?_, ?_⟩
  · rw [HALIState.size_eq, applyOps_total_size]
    exact Nat.zero_add _
  · exact applyOps_nodup rfl (by simp [hdl0]) ops
  · intro k'
    rw [← applyOps_empty_membership rfl hdl0 ops k']
    exact decide_eq_true_iff.symm

theorem C10_fresh_plain_map_witness :
    (applyOps (HALIState.init 0) [Op.ins 1 2]).find 42 = none ∧
    (((applyOps (HALIState.init 0) [Op.ins 1 2]).insert 42 7).2 = true ∧
      (((applyOps (HALIState.init 0) [Op.ins 1 2]).insert 42 7).1).find 42 = some 7 ∧
      ((((applyOps (HALIState.init 0) [Op.ins 1 2]).insert 42 7).1).erase 42).2 = true ∧
      (((((applyOps (HALIState.init 0) [Op.ins 1 2]).insert 42 7).1).erase 42).1).find 42
        = none) ∧
    (applyOps (HALIState.init 0) [Op.ins 1 2]).size
      = ((applyOps (HALIState.init 0) [Op.ins 1 2]).deltaList).length ∧
    ((1 : Nat) ∈ ((applyOps (HALIState.init 0) [Op.ins 1 2]).deltaList).map (fun p => p.1)
      ↔ specContains [Op.ins 1 2] 1 = true) :=
  ⟨by decide,
    (C10_fresh_plain_map 0 [Op.ins 1 2] 42 7).1 (by decide),
    (C10_fresh_plain_map 0 [Op.ins 1 2] 42 7).2.1,
    (C10_fresh_plain_map 0 [Op.ins 1 2] 42 7).2.2.2 1⟩

end HALI
